import Mathlib

/-!
Verification of the guessing-game loop of `src/rr+rust/guess.rs`.

A shallow embedding of the number-guessing program.  The program is a
function of its two external inputs — the result of reading one byte from
`/dev/urandom` and the successive results of `read_line` on standard
input — and produces a trace of observable events (lines written to
standard output, plus markers for the entropy read and each `read_line`
call) together with a final status.
-/

namespace Guess

/-- Rust `char::is_whitespace` (the Unicode `White_Space` property),
the predicate used by `str::trim`. -/
def isRustWhitespace (c : Char) : Bool :=
  let n := c.toNat
  (9 ≤ n && n ≤ 13) || n == 32 || n == 133 || n == 160 || n == 0x1680 ||
    (0x2000 ≤ n && n ≤ 0x200A) || n == 0x2028 || n == 0x2029 ||
    n == 0x202F || n == 0x205F || n == 0x3000

/-- Rust `str::trim`: strip leading and trailing whitespace characters. -/
def trim (l : List Char) : List Char :=
  ((l.dropWhile isRustWhitespace).reverse.dropWhile isRustWhitespace).reverse

/-- `u32::MAX`. -/
def u32Max : Nat := 4294967295

/-- ASCII decimal digit, as accepted by `u32::from_str` in radix 10. -/
def isAsciiDigit (c : Char) : Bool := 48 ≤ c.toNat && c.toNat ≤ 57

/-- The value denoted by a digit string (most significant digit first);
`none` when the string is empty or contains a non-digit.  This mirrors the
accumulation loop of Rust `u32::from_str`, with the overflow check of its
`checked_mul`/`checked_add` steps deferred to `parseU32`: the checked
accumulation fails exactly when the denoted value exceeds `u32::MAX`. -/
def digitsVal (l : List Char) : Option Nat :=
  if !l.isEmpty && l.all isAsciiDigit then
    some (l.foldl (fun a c => a * 10 + (c.toNat - 48)) 0)
  else none

/-- Rust `u32::from_str` accepts a single leading `+` sign. -/
def stripPlus : List Char → List Char
  | c :: cs => if c = '+' then cs else c :: cs
  | [] => []

/-- Rust `"...".parse::<u32>()`: optional leading `+`, then a nonempty run
of digits, and the value must fit in `u32` (otherwise `PosOverflow`). -/
def parseU32 (l : List Char) : Option Nat :=
  match digitsVal (stripPlus l) with
  | some v => if v ≤ u32Max then some v else none
  | none => none

/-- `guess.trim().parse::<u32>()` from line 21 of the source. -/
def parseGuess (l : List Char) : Option Nat := parseU32 (trim l)

/-- The digit character for `d < 10`, as produced by Rust `Display` for
unsigned integers. -/
def digitChar (d : Nat) : Char := Char.ofNat (48 + d)

/-- Decimal formatting, least significant digit peeled off last; models
Rust `Display for u32` as used by the `You guessed:` echo line. -/
def displayAux (n : Nat) (acc : List Char) : List Char :=
  if n < 10 then digitChar n :: acc
  else displayAux (n / 10) (digitChar (n % 10) :: acc)
termination_by n
decreasing_by exact Nat.div_lt_self (by omega) (by omega)

/-- The decimal numeral of `n`. -/
def display (n : Nat) : List Char := displayAux n []

/-- `(buffer[0] as u32 % 100) + 1` from line 11 of the source: the secret
derived from the entropy byte `b`. -/
def secretNumber (b : Nat) : Nat := b % 100 + 1

/-- Observable events of one run: a line written to standard output, the
single read of `/dev/urandom`, or one `read_line` call on standard input. -/
inductive Ev
  | out (s : String)
  | entropyReq
  | readReq
deriving DecidableEq, Repr

/-- Result of one pass through the loop body. -/
inductive IterRes
  | cont
  | won
  | fatal
deriving DecidableEq, Repr

/-- The phase of the run: still looping, exited after a win, or aborted by
a panic. -/
inductive Phase
  | looping
  | won
  | fatal
deriving DecidableEq, Repr

/-- Loop state: the immutable secret together with the current phase. -/
structure St where
  secret : Nat
  phase : Phase
deriving DecidableEq, Repr

def promptLine : String := "Please input your guess."

/-- The `You guessed:` echo line printed for a successfully parsed guess. -/
def echoLine (g : Nat) : String := "You guessed: " ++ String.mk (display g)

/-- One iteration of the `loop` (lines 13–36 of the source), as a function
of the `read_line` result: print the prompt, read a line (panicking on a
read error), parse it (silently restarting the loop on failure), echo the
guess, and three-way compare it with the secret. -/
def iteration (secret : Nat) (r : Except Unit (List Char)) :
    List Ev × IterRes :=
  match r with
  | .error _ => ([.out promptLine, .readReq], .fatal)
  | .ok line =>
    match parseGuess line with
    | none => ([.out promptLine, .readReq], .cont)
    | some g =>
      match compare g secret with
      | .lt => ([.out promptLine, .readReq, .out (echoLine g),
                 .out "Too small!"], .cont)
      | .gt => ([.out promptLine, .readReq, .out (echoLine g),
                 .out "Too big!"], .cont)
      | .eq => ([.out promptLine, .readReq, .out (echoLine g),
                 .out "You win!"], .won)

/-- Run the loop on the successive `read_line` results.  A terminal phase
(`won` after `break`, `fatal` after a panic) consumes no further input. -/
def run (s : St) : List (Except Unit (List Char)) → List Ev × St
  | [] => ([], s)
  | r :: rs =>
    match s.phase with
    | .won => ([], s)
    | .fatal => ([], s)
    | .looping =>
      match iteration s.secret r with
      | (evs, .cont) =>
        let rest := run s rs
        (evs ++ rest.1, rest.2)
      | (evs, .won) => (evs, ⟨s.secret, .won⟩)
      | (evs, .fatal) => (evs, ⟨s.secret, .fatal⟩)

/-- The whole program (`main`): print the banner, read one entropy byte
(the `unwrap` calls on `File::open` and `read` panic on failure, before
the loop begins), derive the secret, and enter the loop. -/
def runProgram (entropy : Except Unit Nat)
    (inputs : List (Except Unit (List Char))) : List Ev × Phase :=
  match entropy with
  | .error _ => ([.out "Guess the number!", .entropyReq], .fatal)
  | .ok b =>
    let res := run ⟨secretNumber b, .looping⟩ inputs
    (.out "Guess the number!" :: .entropyReq :: res.1, res.2.phase)

/-! Facts about decimal formatting and parsing. -/

theorem displayAux_nil (n : Nat) : ∀ acc, displayAux n acc = displayAux n [] ++ acc := by
  induction n using Nat.strong_induction_on with
  | _ n ih =>
    intro acc
    by_cases h : n < 10
    · rw [displayAux, if_pos h]
      conv_rhs => rw [displayAux, if_pos h]
      simp
    · rw [displayAux, if_neg h]
      conv_rhs => rw [displayAux, if_neg h]
      rw [ih (n / 10) (Nat.div_lt_self (by omega) (by omega)) (digitChar (n % 10) :: acc),
          ih (n / 10) (Nat.div_lt_self (by omega) (by omega)) (digitChar (n % 10) :: [])]
      simp

theorem digitChar_toNat {d : Nat} (h : d < 10) : (digitChar d).toNat = 48 + d := by
  interval_cases d <;> decide

theorem isAsciiDigit_digitChar {d : Nat} (h : d < 10) :
    isAsciiDigit (digitChar d) = true := by
  interval_cases d <;> decide

theorem display_spec (n : Nat) :
    (display n).all isAsciiDigit = true ∧ display n ≠ [] ∧
    ∀ a, (display n).foldl (fun a c => a * 10 + (c.toNat - 48)) a
         = a * 10 ^ (display n).length + n := by
  induction n using Nat.strong_induction_on with
  | _ n ih =>
    by_cases h : n < 10
    · have hd : display n = [digitChar n] := by
        rw [display, displayAux, if_pos h]
      rw [hd]
      refine ⟨by simp [isAsciiDigit_digitChar h], by simp, ?_⟩
      intro a
      simp [List.foldl, digitChar_toNat h]
    · have hd : display n = display (n / 10) ++ [digitChar (n % 10)] := by
        rw [display, displayAux, if_neg h, displayAux_nil]
        rfl
      have hlt : n / 10 < n := Nat.div_lt_self (by omega) (by omega)
      obtain ⟨hall, hne, hfold⟩ := ih (n / 10) hlt
      rw [hd]
      refine ⟨?_, by simp, ?_⟩
      · simp [List.all_append, hall, isAsciiDigit_digitChar (Nat.mod_lt n (by omega))]
      · intro a
        rw [List.foldl_append, hfold a]
        simp [digitChar_toNat (Nat.mod_lt n (by omega)), List.length_append, pow_succ]
        ring_nf
        omega

theorem not_ws_of_digit {c : Char} (h : isAsciiDigit c = true) :
    isRustWhitespace c = false := by
  rw [isAsciiDigit] at h
  rw [isRustWhitespace]
  simp at h ⊢
  omega

theorem dropWhile_eq_self {p : Char → Bool} {l : List Char}
    (h : ∀ c ∈ l, p c = false) : l.dropWhile p = l := by
  cases l with
  | nil => rfl
  | cons c cs => simp [List.dropWhile_cons, h c (by simp)]

theorem trim_of_digits {l : List Char} (h : l.all isAsciiDigit = true) :
    trim l = l := by
  have hws : ∀ c ∈ l, isRustWhitespace c = false := by
    intro c hc
    exact not_ws_of_digit (List.all_eq_true.mp h c hc)
  rw [trim, dropWhile_eq_self hws, dropWhile_eq_self (by simpa using hws),
      List.reverse_reverse]

theorem stripPlus_of_digits {l : List Char} (h : l.all isAsciiDigit = true) :
    stripPlus l = l := by
  cases l with
  | nil => rfl
  | cons c cs =>
    have hc : isAsciiDigit c = true := by
      have := List.all_eq_true.mp h c (by simp)
      simpa using this
    have hne : ¬(c = '+') := by
      intro hceq
      rw [hceq] at hc
      exact absurd hc (by decide)
    simp [stripPlus, hne]

theorem digitsVal_display (n : Nat) : digitsVal (display n) = some n := by
  obtain ⟨hall, hne, hfold⟩ := display_spec n
  rw [digitsVal, if_pos]
  · rw [hfold 0]
    simp
  · simp [hall, hne]

theorem parseGuess_display (n : Nat) (h : n ≤ u32Max) :
    parseGuess (display n) = some n := by
  obtain ⟨hall, -, -⟩ := display_spec n
  rw [parseGuess, trim_of_digits hall, parseU32, stripPlus_of_digits hall,
      digitsVal_display n]
  simp [h]

theorem parseGuess_display_big (n : Nat) (h : u32Max < n) :
    parseGuess (display n) = none := by
  obtain ⟨hall, -, -⟩ := display_spec n
  rw [parseGuess, trim_of_digits hall, parseU32, stripPlus_of_digits hall,
      digitsVal_display n]
  simp
  omega

/-! Facts about one loop iteration and about whole runs. -/

theorem echoLine_ne_win (g : Nat) : echoLine g ≠ "You win!" := by
  intro h
  have h2 := congrArg String.data h
  rw [echoLine] at h2
  simp [String.data_append] at h2

theorem iteration_err (secret : Nat) (e : Unit) :
    iteration secret (.error e) = ([.out promptLine, .readReq], .fatal) := rfl

theorem iteration_bad (secret : Nat) {l : List Char} (h : parseGuess l = none) :
    iteration secret (.ok l) = ([.out promptLine, .readReq], .cont) := by
  simp only [iteration, h]

theorem iteration_lt {secret g : Nat} {l : List Char}
    (hp : parseGuess l = some g) (h : g < secret) :
    iteration secret (.ok l)
      = ([.out promptLine, .readReq, .out (echoLine g), .out "Too small!"],
         .cont) := by
  have hc : compare g secret = Ordering.lt := Nat.compare_eq_lt.mpr h
  simp only [iteration, hp, hc]

theorem iteration_gt {secret g : Nat} {l : List Char}
    (hp : parseGuess l = some g) (h : secret < g) :
    iteration secret (.ok l)
      = ([.out promptLine, .readReq, .out (echoLine g), .out "Too big!"],
         .cont) := by
  have hc : compare g secret = Ordering.gt := Nat.compare_eq_gt.mpr h
  simp only [iteration, hp, hc]

theorem iteration_eq {secret : Nat} {l : List Char}
    (hp : parseGuess l = some secret) :
    iteration secret (.ok l)
      = ([.out promptLine, .readReq, .out (echoLine secret), .out "You win!"],
         .won) := by
  have hc : compare secret secret = Ordering.eq := Nat.compare_eq_eq.mpr rfl
  simp only [iteration, hp, hc]

theorem count_win_iteration (secret : Nat) (r : Except Unit (List Char)) :
    ((iteration secret r).1.count (Ev.out "You win!"))
      = if (iteration secret r).2 = IterRes.won then 1 else 0 := by
  cases r with
  | error e => rw [iteration_err]; decide
  | ok l =>
    cases hp : parseGuess l with
    | none => rw [iteration_bad secret hp]; decide
    | some g =>
      rcases Nat.lt_trichotomy g secret with h | h | h
      · rw [iteration_lt hp h]
        simp [List.count_cons, echoLine_ne_win, promptLine]
      · subst h
        rw [iteration_eq hp]
        simp [List.count_cons, echoLine_ne_win, promptLine]
      · rw [iteration_gt hp h]
        simp [List.count_cons, echoLine_ne_win, promptLine]

theorem run_nil (s : St) : run s [] = ([], s) := rfl

theorem run_term {secret : Nat} {ph : Phase} (h : ph ≠ Phase.looping) (rs) :
    run ⟨secret, ph⟩ rs = ([], ⟨secret, ph⟩) := by
  cases ph with
  | looping => exact absurd rfl h
  | won => cases rs <;> rfl
  | fatal => cases rs <;> rfl

theorem run_cons_cont {secret : Nat} {r} {evs}
    (h : iteration secret r = (evs, IterRes.cont)) (rs) :
    run ⟨secret, .looping⟩ (r :: rs)
      = (evs ++ (run ⟨secret, .looping⟩ rs).1, (run ⟨secret, .looping⟩ rs).2) := by
  rw [run]
  simp only [h]

theorem run_cons_won {secret : Nat} {r} {evs}
    (h : iteration secret r = (evs, IterRes.won)) (rs) :
    run ⟨secret, .looping⟩ (r :: rs) = (evs, ⟨secret, .won⟩) := by
  rw [run]
  simp only [h]

theorem run_cons_fatal {secret : Nat} {r} {evs}
    (h : iteration secret r = (evs, IterRes.fatal)) (rs) :
    run ⟨secret, .looping⟩ (r :: rs) = (evs, ⟨secret, .fatal⟩) := by
  rw [run]
  simp only [h]

theorem run_count_win (secret : Nat) (rs : List (Except Unit (List Char))) :
    ((run ⟨secret, .looping⟩ rs).1.count (Ev.out "You win!"))
      = if (run ⟨secret, .looping⟩ rs).2.phase = Phase.won then 1 else 0 := by
  induction rs with
  | nil => simp [run_nil]
  | cons r rs ih =>
    rcases hit : iteration secret r with ⟨evs, res⟩
    have hcount := count_win_iteration secret r
    rw [hit] at hcount
    cases res with
    | cont =>
      rw [run_cons_cont hit rs]
      simp only [List.count_append]
      simp at hcount
      rw [hcount, ih]
      simp
    | won =>
      rw [run_cons_won hit rs]
      simpa using hcount
    | fatal =>
      rw [run_cons_fatal hit rs]
      simp at hcount ⊢
      exact hcount

theorem no_entropy_iteration (secret : Nat) (r : Except Unit (List Char)) :
    Ev.entropyReq ∉ (iteration secret r).1 := by
  cases r with
  | error e => rw [iteration_err]; decide
  | ok l =>
    cases hp : parseGuess l with
    | none => rw [iteration_bad secret hp]; decide
    | some g =>
      rcases Nat.lt_trichotomy g secret with h | h | h
      · rw [iteration_lt hp h]; simp
      · subst h
        rw [iteration_eq hp]; simp
      · rw [iteration_gt hp h]; simp

theorem no_entropy_run (s : St) (rs : List (Except Unit (List Char))) :
    Ev.entropyReq ∉ (run s rs).1 := by
  induction rs generalizing s with
  | nil => simp [run_nil]
  | cons r rs ih =>
    obtain ⟨secret, ph⟩ := s
    cases hph : ph with
    | looping =>
      rcases hit : iteration secret r with ⟨evs, res⟩
      have hni := no_entropy_iteration secret r
      rw [hit] at hni
      cases res with
      | cont =>
        rw [run_cons_cont hit rs]
        simp only [List.mem_append]
        rintro (hmem | hmem)
        · exact hni hmem
        · exact ih ⟨secret, .looping⟩ hmem
      | won => rw [run_cons_won hit rs]; exact hni
      | fatal => rw [run_cons_fatal hit rs]; exact hni
    | won => rw [run_term (by simp) (r :: rs)]; simp
    | fatal => rw [run_term (by simp) (r :: rs)]; simp

theorem run_secret_invariant (rs : List (Except Unit (List Char))) (s : St) :
    (run s rs).2.secret = s.secret := by
  induction rs generalizing s with
  | nil => rfl
  | cons r rs ih =>
    obtain ⟨secret, ph⟩ := s
    cases ph with
    | looping =>
      rcases hit : iteration secret r with ⟨evs, res⟩
      cases res with
      | cont => rw [run_cons_cont hit rs]; exact ih ⟨secret, .looping⟩
      | won => rw [run_cons_won hit rs]
      | fatal => rw [run_cons_fatal hit rs]
    | won => rw [run_term (by simp) (r :: rs)]
    | fatal => rw [run_term (by simp) (r :: rs)]

/-! The claims. -/

/-- C1: the guess loop terminates exactly when a successfully parsed guess
equals the secret: an iteration breaks the loop iff its line parses to the
secret; over a whole run the win message is emitted exactly once when the
run ends in the won phase and never otherwise; and the won state is
terminal (no further input is consumed). -/
theorem win_iff_guess_equals_secret (secret : Nat) :
    (∀ r, (iteration secret r).2 = IterRes.won ↔
        ∃ l, r = Except.ok l ∧ parseGuess l = some secret)
    ∧ (∀ rs, ((run ⟨secret, Phase.looping⟩ rs).1.count (Ev.out "You win!"))
        = if (run ⟨secret, Phase.looping⟩ rs).2.phase = Phase.won then 1 else 0)
    ∧ (∀ rs, run ⟨secret, Phase.won⟩ rs = ([], ⟨secret, Phase.won⟩)) := by
  refine ⟨?_, run_count_win secret, fun rs => run_term (by simp) rs⟩
  intro r
  constructor
  · intro hwon
    cases r with
    | error e => rw [iteration_err] at hwon; simp at hwon
    | ok l =>
      cases hp : parseGuess l with
      | none => rw [iteration_bad secret hp] at hwon; simp at hwon
      | some g =>
        rcases Nat.lt_trichotomy g secret with h | h | h
        · rw [iteration_lt hp h] at hwon; simp at hwon
        · exact ⟨l, rfl, h ▸ hp⟩
        · rw [iteration_gt hp h] at hwon; simp at hwon
  · rintro ⟨l, rfl, hp⟩
    rw [iteration_eq hp]

/-- C2: a successfully parsed guess different from the secret is echoed and
answered with the `Too small!` line when it is below the secret and with
the `Too big!` line when it is above, the iteration continuing either way;
and a guess of 0 is always below the secret, since the secret is at
least 1. -/
theorem feedback_direction (b : Nat) (l : List Char) (g : Nat)
    (hp : parseGuess l = some g) (hne : g ≠ secretNumber b) :
    iteration (secretNumber b) (Except.ok l)
      = ([.out promptLine, .readReq, .out (echoLine g),
          .out (if g < secretNumber b then "Too small!" else "Too big!")],
         IterRes.cont)
    ∧ (g = 0 → g < secretNumber b) := by
  constructor
  · rcases Nat.lt_trichotomy g (secretNumber b) with h | h | h
    · rw [iteration_lt hp h, if_pos h]
    · exact absurd h hne
    · rw [iteration_gt hp h, if_neg (by omega)]
  · intro h0
    subst h0
    rw [secretNumber]
    omega

theorem feedback_direction_witness :
    parseGuess ['3'] = some 3 ∧ (3 : Nat) ≠ secretNumber 5 ∧
    (iteration (secretNumber 5) (Except.ok ['3'])
       = ([.out promptLine, .readReq, .out (echoLine 3),
           .out (if 3 < secretNumber 5 then "Too small!" else "Too big!")],
          IterRes.cont)
     ∧ ((3 : Nat) = 0 → 3 < secretNumber 5)) :=
  ⟨by decide, by decide, feedback_direction 5 ['3'] 3 (by decide) (by decide)⟩

/-- C3: for every entropy byte `b ≤ 255` the secret equals
`b % 100 + 1`, hence lies in the inclusive range 1 to 100. -/
theorem secret_in_range (b : Nat) (_hb : b ≤ 255) :
    secretNumber b = b % 100 + 1 ∧ 1 ≤ secretNumber b ∧ secretNumber b ≤ 100 := by
  refine ⟨rfl, ?_, ?_⟩ <;> (rw [secretNumber]; omega)

theorem secret_in_range_witness :
    (207 : Nat) ≤ 255 ∧
    (secretNumber 207 = 207 % 100 + 1 ∧ 1 ≤ secretNumber 207 ∧ secretNumber 207 ≤ 100) :=
  ⟨by decide, secret_in_range 207 (by decide)⟩

/-- C4: a line whose trimmed text does not parse as a `u32` is silently
discarded: the iteration emits only the prompt (no error or feedback
line), continues, and the loop then re-prompts and processes the remaining
input exactly as if the bad line had not been there. -/
theorem invalid_input_discarded (secret : Nat) (l : List Char)
    (hp : parseGuess l = none) :
    iteration secret (Except.ok l) = ([.out promptLine, .readReq], IterRes.cont)
    ∧ ∀ rs, run ⟨secret, Phase.looping⟩ (Except.ok l :: rs)
        = (Ev.out promptLine :: Ev.readReq :: (run ⟨secret, Phase.looping⟩ rs).1,
           (run ⟨secret, Phase.looping⟩ rs).2) := by
  have hit := iteration_bad secret hp
  refine ⟨hit, fun rs => ?_⟩
  rw [run_cons_cont hit rs]
  rfl

theorem invalid_input_discarded_witness :
    parseGuess ['a', 'b', 'c'] = none ∧
    (iteration 5 (Except.ok ['a', 'b', 'c'])
       = ([.out promptLine, .readReq], IterRes.cont)
     ∧ ∀ rs, run ⟨5, Phase.looping⟩ (Except.ok ['a', 'b', 'c'] :: rs)
         = (Ev.out promptLine :: Ev.readReq :: (run ⟨5, Phase.looping⟩ rs).1,
            (run ⟨5, Phase.looping⟩ rs).2)) :=
  ⟨by decide, invalid_input_discarded 5 ['a', 'b', 'c'] (by decide)⟩

/-- C5: when every input line parses to a value strictly below the secret,
the run never emits the win message and never leaves the loop (the final
phase is still `looping`, for every finite prefix of such a stream). -/
theorem all_low_never_wins (secret : Nat) (rs : List (Except Unit (List Char)))
    (h : ∀ r ∈ rs, ∃ l g, r = Except.ok l ∧ parseGuess l = some g ∧ g < secret) :
    (run ⟨secret, Phase.looping⟩ rs).2 = ⟨secret, Phase.looping⟩
    ∧ Ev.out "You win!" ∉ (run ⟨secret, Phase.looping⟩ rs).1 := by
  induction rs with
  | nil => exact ⟨rfl, by simp [run_nil]⟩
  | cons r rs ih =>
    obtain ⟨l, g, rfl, hp, hlt⟩ := h _ (List.mem_cons_self _ _)
    have hit := iteration_lt hp hlt
    obtain ⟨ih1, ih2⟩ := ih (fun r hr => h r (List.mem_cons_of_mem _ hr))
    rw [run_cons_cont hit rs]
    have hc := count_win_iteration secret (Except.ok l)
    rw [hit] at hc
    simp at hc
    have hnotin := List.count_eq_zero.mp hc
    refine ⟨ih1, ?_⟩
    simp only [List.mem_append]
    rintro (hmem | hmem)
    · exact hnotin hmem
    · exact ih2 hmem

theorem all_low_never_wins_witness :
    (∀ r ∈ ([Except.ok ['1']] : List (Except Unit (List Char))),
        ∃ l g, r = Except.ok l ∧ parseGuess l = some g ∧ g < 5) ∧
    ((run ⟨5, Phase.looping⟩ [Except.ok ['1']]).2 = ⟨5, Phase.looping⟩
     ∧ Ev.out "You win!" ∉ (run ⟨5, Phase.looping⟩ [Except.ok ['1']]).1) := by
  have h : ∀ r ∈ ([Except.ok ['1']] : List (Except Unit (List Char))),
      ∃ l g, r = Except.ok l ∧ parseGuess l = some g ∧ g < 5 := by
    intro r hr
    simp only [List.mem_singleton] at hr
    subst hr
    exact ⟨['1'], 1, rfl, by decide, by decide⟩
  exact ⟨h, all_low_never_wins 5 [Except.ok ['1']] h⟩

/-- C6: the entropy source is consulted exactly once, right after the
banner and before any loop iteration; entropy failure aborts before the
loop begins (the trace ends at the entropy request, no read of standard
input ever happens); and a failing `read_line` aborts the run immediately,
consuming none of the remaining input. -/
theorem entropy_once_and_fatal_reads :
    (∀ inputs, runProgram (Except.error ()) inputs
        = ([.out "Guess the number!", .entropyReq], Phase.fatal))
    ∧ (∀ b inputs, ((runProgram (Except.ok b) inputs).1.count Ev.entropyReq) = 1)
    ∧ (∀ b inputs, (runProgram (Except.ok b) inputs).1.take 2
        = [.out "Guess the number!", .entropyReq])
    ∧ (∀ secret rs, run ⟨secret, Phase.looping⟩ (Except.error () :: rs)
        = ([.out promptLine, .readReq], ⟨secret, Phase.fatal⟩)) := by
  refine ⟨fun inputs => rfl, ?_, fun b inputs => rfl,
    fun secret rs => run_cons_fatal (iteration_err secret ()) rs⟩
  intro b inputs
  have h0 : ((run ⟨secretNumber b, Phase.looping⟩ inputs).1.count Ev.entropyReq) = 0 :=
    List.count_eq_zero.mpr (no_entropy_run _ inputs)
  show ((Ev.out "Guess the number!" :: Ev.entropyReq ::
          (run ⟨secretNumber b, Phase.looping⟩ inputs).1).count Ev.entropyReq) = 1
  simp [List.count_cons, h0]

/-- C7: the echo line is the fixed prefix followed by the decimal numeral
of the guess, and re-parsing that numeral the way the program parses input
gives back exactly the guess — printing then parsing a valid guess is the
identity. -/
theorem echo_roundtrip (g : Nat) (h : g ≤ u32Max) :
    echoLine g = "You guessed: " ++ String.mk (display g)
    ∧ parseGuess (display g) = some g :=
  ⟨rfl, parseGuess_display g h⟩

theorem echo_roundtrip_witness :
    (42 : Nat) ≤ u32Max ∧
    (echoLine 42 = "You guessed: " ++ String.mk (display 42)
     ∧ parseGuess (display 42) = some 42) :=
  ⟨by decide, echo_roundtrip 42 (by decide)⟩

/-- C8: the secret component of the loop state is invariant: however many
input lines are processed and whatever they contain, the final state
carries the same secret the run started with. -/
theorem secret_never_changes (s : St) (rs : List (Except Unit (List Char))) :
    (run s rs).2.secret = s.secret :=
  run_secret_invariant rs s

/-- C9: every line whose trimmed text is a well-formed base-10 numeral
(an optional `+` sign and a run of digits, leading zeros and surrounding
whitespace allowed) denoting a value above `u32::MAX` fails to parse, so
the program treats the line as invalid input — the iteration emits only
the prompt and continues — instead of comparing it as a too-big guess. -/
theorem overflow_guess_discarded (l : List Char) (v : Nat)
    (hv : digitsVal (stripPlus (trim l)) = some v) (h : u32Max < v) :
    parseGuess l = none
    ∧ ∀ secret, iteration secret (Except.ok l)
        = ([.out promptLine, .readReq], IterRes.cont) := by
  have hp : parseGuess l = none := by
    rw [parseGuess, parseU32, hv]
    simp
    omega
  exact ⟨hp, fun secret => iteration_bad secret hp⟩

theorem overflow_guess_discarded_witness :
    digitsVal (stripPlus (trim
        [' ', '+', '0', '4', '2', '9', '4', '9', '6', '7', '2', '9', '6', ' ']))
      = some 4294967296
    ∧ u32Max < 4294967296
    ∧ (parseGuess [' ', '+', '0', '4', '2', '9', '4', '9', '6', '7', '2', '9', '6', ' '] = none
       ∧ ∀ secret, iteration secret (Except.ok
             [' ', '+', '0', '4', '2', '9', '4', '9', '6', '7', '2', '9', '6', ' '])
           = ([.out promptLine, .readReq], IterRes.cont)) :=
  ⟨by decide, by decide,
    overflow_guess_discarded
      [' ', '+', '0', '4', '2', '9', '4', '9', '6', '7', '2', '9', '6', ' ']
      4294967296 (by decide) (by decide)⟩

/-- C10: the program is deterministic in its inputs: two runs given the
same entropy result and the same sequence of standard-input lines produce
the same output trace and the same termination status. -/
theorem same_inputs_same_run (e e' : Except Unit Nat)
    (i i' : List (Except Unit (List Char))) (he : e = e') (hi : i = i') :
    (runProgram e i).1 = (runProgram e' i').1
    ∧ (runProgram e i).2 = (runProgram e' i').2 := by
  subst he
  subst hi
  exact ⟨rfl, rfl⟩

theorem same_inputs_same_run_witness :
    ((Except.ok 7 : Except Unit Nat) = Except.ok 7)
    ∧ (([Except.ok ['8']] : List (Except Unit (List Char))) = [Except.ok ['8']])
    ∧ ((runProgram (Except.ok 7) [Except.ok ['8']]).1
         = (runProgram (Except.ok 7) [Except.ok ['8']]).1
       ∧ (runProgram (Except.ok 7) [Except.ok ['8']]).2
         = (runProgram (Except.ok 7) [Except.ok ['8']]).2) :=
  ⟨rfl, rfl, same_inputs_same_run (Except.ok 7) (Except.ok 7)
      [Except.ok ['8']] [Except.ok ['8']] rfl rfl⟩

end Guess
